import Mathlib

/-!
Verification of the Mind-Dump transcript derivation engine (`src/App.tsx`).

The file gives a shallow embedding of the engine's functions —
`getScheduledDateFromText`, `stripDateWords`, the segmenter, `classify`
and `processTranscriptToTasks` — and proves or refutes the specified
properties about them.

Modelling conventions:
* A JavaScript `Date` is its epoch-milliseconds value (`JSDate.epochMs : ℤ`).
  The ambient local time zone is taken to be UTC, so the local-calendar
  accessors (`getFullYear`, `getMonth`, `getDate`, `getDay`) and
  `toISOString` agree on the same civil calendar.
* Civil-calendar conversions use the standard proleptic-Gregorian
  day-count algorithms; `daysFromCivil` is linear in its day argument,
  which models the day-overflow normalisation JavaScript's
  `new Date(year, month, day)` and `setDate` perform.
* Strings are `List Char` under the hood; the regular expressions of the
  source are embedded as explicit scanners with JavaScript's leftmost,
  alternation-in-order, greedy-with-backtracking match semantics, and
  `String.prototype.replace(/…/g, '')` as a single left-to-right pass
  over the input.
* The source reads the wall clock twice (`new Date()` in
  `processTranscriptToTasks` and again inside `getScheduledDateFromText`);
  each read is modelled as an explicit parameter.
-/

/-- Day length in milliseconds. -/
def dayMs : ℤ := 86400000

/-- Days-from-civil with the day-of-month contribution split off:
`dfcBase y m` is the day number of day 1 of month `m` (1-based) of year `y`,
by the standard proleptic-Gregorian algorithm. -/
def dfcBase (y m : ℤ) : ℤ :=
  let yy := if m ≤ 2 then y - 1 else y
  let era := Int.fdiv yy 400
  let yoe := yy - era * 400
  let mp := Int.emod (m + 9) 12
  let doy := Int.fdiv (153 * mp + 2) 5
  let doe := yoe * 365 + Int.fdiv yoe 4 - Int.fdiv yoe 100 + doy
  era * 146097 + doe - 719468

/-- Day number (days since 1970-01-01) of civil date `(y, m, d)`, `m` 1-based.
Linear in `d`, so out-of-range days roll over exactly as JavaScript `Date`
arithmetic does. -/
def daysFromCivil (y m d : ℤ) : ℤ := dfcBase y m + (d - 1)

/-- Civil date `(year, month 1-based, day)` of a day number. -/
def civilFromDays (z : ℤ) : ℤ × ℤ × ℤ :=
  let z' := z + 719468
  let era := Int.fdiv z' 146097
  let doe := z' - era * 146097
  let yoe := Int.fdiv (doe - Int.fdiv doe 1460 + Int.fdiv doe 36524 - Int.fdiv doe 146096) 365
  let y := yoe + era * 400
  let doy := doe - (365 * yoe + Int.fdiv yoe 4 - Int.fdiv yoe 100)
  let mp := Int.fdiv (5 * doy + 2) 153
  let d := doy - Int.fdiv (153 * mp + 2) 5 + 1
  let m := if mp < 10 then mp + 3 else mp - 9
  (if m ≤ 2 then y + 1 else y, m, d)

/-- A JavaScript `Date`: its epoch-milliseconds value. -/
structure JSDate where
  epochMs : ℤ
  deriving DecidableEq, Repr

/-- Day number of the instant (local = UTC). -/
def jsDays (d : JSDate) : ℤ := Int.fdiv d.epochMs dayMs

/-- Milliseconds elapsed since local midnight. -/
def jsMsOfDay (d : JSDate) : ℤ := Int.emod d.epochMs dayMs

/-- `Date.prototype.getFullYear`. -/
def jsGetFullYear (d : JSDate) : ℤ := (civilFromDays (jsDays d)).1

/-- `Date.prototype.getMonth` (0-based, as in JavaScript). -/
def jsGetMonth (d : JSDate) : ℤ := (civilFromDays (jsDays d)).2.1 - 1

/-- `Date.prototype.getDate` (day of month). -/
def jsGetDate (d : JSDate) : ℤ := (civilFromDays (jsDays d)).2.2

/-- `Date.prototype.getDay` (0 = Sunday … 6 = Saturday); 1970-01-01 was a
Thursday. -/
def jsGetDay (d : JSDate) : ℤ := Int.emod (jsDays d + 4) 7

/-- `new Date(year, month, day)` with JavaScript's month and day
normalisation (the `month` argument is 0-based and may lie outside `0..11`;
the `day` argument rolls over month boundaries).  The result is local
midnight of the normalised date.  (JavaScript's remapping of two-digit
years to 19xx is irrelevant here: the constructor is only reached with
`getFullYear()` values.) -/
def jsMkDate (y m d : ℤ) : JSDate :=
  ⟨daysFromCivil (y + Int.fdiv m 12) (Int.emod m 12 + 1) d * dayMs⟩

/-- `Date.prototype.setDate v` returns the updated date: the day of month
becomes `v` (with rollover), i.e. the instant shifts by
`(v - getDate()) ` days, keeping the time of day. -/
def jsSetDate (d : JSDate) (v : ℤ) : JSDate :=
  ⟨d.epochMs + (v - jsGetDate d) * dayMs⟩

/-- Left-pad the decimal representation of a non-negative integer with `'0'`
to width `w`. -/
def zpad (w : Nat) (n : ℤ) : String :=
  let s := toString n
  ⟨List.replicate (w - s.length) '0'⟩ ++ s

/-- `Date.prototype.toISOString` (UTC). -/
def isoString (d : JSDate) : String :=
  let days := jsDays d
  let ms := jsMsOfDay d
  let c := civilFromDays days
  let y := c.1
  let yStr :=
    if y < 0 then "-" ++ zpad 6 (-y)
    else if 9999 < y then "+" ++ zpad 6 y
    else zpad 4 y
  yStr ++ "-" ++ zpad 2 c.2.1 ++ "-" ++ zpad 2 c.2.2 ++ "T" ++
    zpad 2 (Int.fdiv ms 3600000) ++ ":" ++
    zpad 2 (Int.emod (Int.fdiv ms 60000) 60) ++ ":" ++
    zpad 2 (Int.emod (Int.fdiv ms 1000) 60) ++ "." ++
    zpad 3 (Int.emod ms 1000) ++ "Z"

/-- JavaScript's `\s` character class (whitespace), as used by
`replace(/\s+/g, '')`, `replace(/\s{2,}/g, ' ')` and `trim()`. -/
def jsIsSpace (c : Char) : Bool :=
  (9 ≤ c.toNat && c.toNat ≤ 13) || c = ' ' || c.toNat = 0xa0 ||
    c.toNat = 0x1680 || (0x2000 ≤ c.toNat && c.toNat ≤ 0x200a) ||
    c.toNat = 0x2028 || c.toNat = 0x2029 || c.toNat = 0x202f ||
    c.toNat = 0x205f || c.toNat = 0x3000 || c.toNat = 0xfeff

/-- Substring test: `containsL pat l` is true iff `pat` occurs contiguously
in `l` (the semantics of `RegExp.test` for a literal pattern). -/
def containsL (pat : List Char) : List Char → Bool
  | [] => pat.isEmpty
  | c :: rest => pat.isPrefixOf (c :: rest) || containsL pat rest

/-- `RegExp.test` of a literal alternation `pat` against a string. -/
def containsStr (s : String) (pat : String) : Bool := containsL pat.data s.data

/-- `RegExp.test` of an alternation of literal strings. -/
def containsAnyStr (s : String) (pats : List String) : Bool :=
  pats.any (containsStr s)

/-- Trailing-whitespace trimming (structural version of `dropWhileEnd`). -/
def trimR : List Char → List Char
  | [] => []
  | c :: rest =>
    if (trimR rest).isEmpty then (if jsIsSpace c then [] else [c])
    else c :: trimR rest

/-- `String.prototype.trim` on the character list. -/
def jsTrimList (l : List Char) : List Char := trimR (l.dropWhile jsIsSpace)

/-- `String.prototype.trim`. -/
def jsTrim (s : String) : String := ⟨jsTrimList s.data⟩

/-- Match-at-position for an alternation of literal strings, alternatives
tried in order (JavaScript alternation semantics); returns the length of
the match. -/
def matchLits (lits : List (List Char)) (l : List Char) : Option Nat :=
  match lits with
  | [] => none
  | p :: ps => if p.isPrefixOf l then some p.length else matchLits ps l

/-- The character class `[一二三四五六天日]` of the weekday patterns. -/
def isWeekdayChar (c : Char) : Bool :=
  c = '一' || c = '二' || c = '三' || c = '四' || c = '五' || c = '六' ||
    c = '天' || c = '日'

/-- The character class `[号日]` of the day-of-month patterns. -/
def isDaySuffix (c : Char) : Bool := c = '号' || c = '日'

/-- Match-at-position for `周[一二三四五六天日]`. -/
def matchZhou (l : List Char) : Option Nat :=
  match l with
  | a :: b :: _ => if a = '周' && isWeekdayChar b then some 2 else none
  | _ => none

/-- Match-at-position for `星期[一二三四五六天日]`. -/
def matchXingqi (l : List Char) : Option Nat :=
  match l with
  | a :: b :: c :: _ =>
    if a = '星' && b = '期' && isWeekdayChar c then some 3 else none
  | _ => none

/-- Match-at-position for `\d{1,2}[号日]` (greedy digits, backtracking). -/
def matchDaySuffix (l : List Char) : Option Nat :=
  match l with
  | a :: b :: c :: _ =>
    if a.isDigit && b.isDigit && isDaySuffix c then some 3
    else if a.isDigit && isDaySuffix b then some 2
    else none
  | [a, b] => if a.isDigit && isDaySuffix b then some 2 else none
  | _ => none

/-- Match-at-position for `\d{1,2}月` (greedy digits, backtracking). -/
def matchMonth (l : List Char) : Option Nat :=
  match l with
  | a :: b :: c :: _ =>
    if a.isDigit && b.isDigit && c = '月' then some 3
    else if a.isDigit && b = '月' then some 2
    else none
  | [a, b] => if a.isDigit && b = '月' then some 2 else none
  | _ => none

/-- Tail of `\d{1,2}月\d{1,2}[号日]?`: greedy one-or-two digits followed by
an optional (greedily taken) `[号日]`; returns the consumed length. -/
def matchDigitsOptSuffix (l : List Char) : Option Nat :=
  match l with
  | [] => none
  | x :: rest =>
    if x.isDigit then
      match rest with
      | [] => some 1
      | y :: rest2 =>
        if y.isDigit then
          match rest2 with
          | [] => some 2
          | z :: _ => if isDaySuffix z then some 3 else some 2
        else if isDaySuffix y then some 2
        else some 1
    else none

/-- Match-at-position for `\d{1,2}月\d{1,2}[号日]?`. -/
def matchMonthDay (l : List Char) : Option Nat :=
  match l with
  | d1 :: d2 :: m :: rest =>
    if d1.isDigit && d2.isDigit && m = '月' then
      (matchDigitsOptSuffix rest).map (fun k => 3 + k)
    else if d1.isDigit && d2 = '月' then
      (matchDigitsOptSuffix (m :: rest)).map (fun k => 2 + k)
    else none
  | _ => none

/-- One pass of `String.prototype.replace(pattern, '')` with a global
regex: scan left to right, deleting each match found and resuming right
after it (a replacement never re-feeds the pattern).  `fuel` bounds the
recursion; it is instantiated with the list length, which suffices since
every step consumes at least one character. -/
def stripGo (f : List Char → Option Nat) : Nat → List Char → List Char
  | _, [] => []
  | 0, l => l
  | fuel + 1, c :: rest =>
    match f (c :: rest) with
    | some (n + 1) => stripGo f fuel (rest.drop n)
    | _ => c :: stripGo f fuel rest

/-- `replace(pattern, '')` with a global regex, one full pass. -/
def stripAll (f : List Char → Option Nat) (l : List Char) : List Char :=
  stripGo f l.length l

/-- One pass of `replace(/\s{2,}/g, ' ')`: each maximal run of two or more
whitespace characters becomes a single space. -/
def collapseGo : Nat → List Char → List Char
  | fuel + 1, a :: b :: rest =>
    if jsIsSpace a && jsIsSpace b then
      ' ' :: collapseGo fuel (rest.dropWhile jsIsSpace)
    else a :: collapseGo fuel (b :: rest)
  | _, l => l

/-- `replace(/\s{2,}/g, ' ')`. -/
def collapseWs (l : List Char) : List Char := collapseGo l.length l

/-- The ten date-vocabulary patterns of `stripDateWords`, in source order
(note `/后天/` precedes `/大后天/`). -/
def stripPatterns : List (List Char → Option Nat) :=
  [ matchLits ["今天".data, "今日".data, "今儿".data],
    matchLits ["明天".data, "明日".data],
    matchLits ["后天".data],
    matchLits ["大后天".data],
    matchLits ["本周".data, "这周".data, "本星期".data, "下周".data, "下星期".data],
    matchZhou,
    matchXingqi,
    matchMonthDay,
    matchMonth,
    matchDaySuffix ]

/-- `stripDateWords` (source lines 125–145): delete the ten date patterns
in order, collapse whitespace runs, trim. -/
def stripDateWords (s : String) : String :=
  ⟨jsTrimList (collapseWs (stripPatterns.foldl (fun l f => stripAll f l) s.data))⟩

/-- `text.replace(/\s+/g, '')` (source line 53): the whitespace-stripped
content the resolver matches against. -/
def wsStrip (s : String) : List Char := s.data.filter (fun c => !(jsIsSpace c))

/-- First (leftmost) match of `/(\d{1,2})[号日]/` in the content, returning
the numeric value of the captured digit group (`parseInt(dayMatch[1], 10)`);
greedy in the digit count, with backtracking. -/
def dayNumAt (l : List Char) : Option ℤ :=
  match l with
  | a :: b :: c :: _ =>
    if a.isDigit && b.isDigit && isDaySuffix c then
      some (10 * (a.toNat - 48 : ℤ) + (b.toNat - 48 : ℤ))
    else if a.isDigit && isDaySuffix b then some (a.toNat - 48 : ℤ)
    else none
  | [a, b] =>
    if a.isDigit && isDaySuffix b then some (a.toNat - 48 : ℤ) else none
  | _ => none

/-- Leftmost `/(\d{1,2})[号日]/` match over the whole content. -/
def firstDayNum : List Char → Option ℤ
  | [] => none
  | c :: rest =>
    match dayNumAt (c :: rest) with
    | some v => some v
    | none => firstDayNum rest

/-- The prefix alternatives of the weekday regex, in alternation order:
`(下周|下星期|这周|本周|本星期|周|星期)`. -/
def weekPrefixAlts : List (List Char) :=
  ["下周".data, "下星期".data, "这周".data, "本周".data, "本星期".data,
    "周".data, "星期".data]

/-- Try the weekday regex at the current position: alternatives in order,
each requiring a following weekday-class character; on a class failure the
next alternative is tried (regex backtracking). -/
def weekAlt : List (List Char) → List Char → Option (List Char × Char)
  | [], _ => none
  | p :: ps, l =>
    if p.isPrefixOf l then
      match l.drop p.length with
      | ch :: _ =>
        if isWeekdayChar ch then some (p, ch) else weekAlt ps l
      | [] => weekAlt ps l
    else weekAlt ps l

/-- Leftmost match of
`/(下周|下星期|这周|本周|本星期|周|星期)([一二三四五六天日])/`,
returning the two captured groups. -/
def firstWeekMatch : List Char → Option (List Char × Char)
  | [] => none
  | c :: rest =>
    match weekAlt weekPrefixAlts (c :: rest) with
    | some r => some r
    | none => firstWeekMatch rest

/-- The weekday map `{一:1, …, 六:6, 日:7, 天:7}` (source lines 94–103);
`0` models a missed (undefined, falsy) lookup. -/
def weekdayVal (c : Char) : ℤ :=
  if c = '一' then 1 else if c = '二' then 2 else if c = '三' then 3
  else if c = '四' then 4 else if c = '五' then 5 else if c = '六' then 6
  else if c = '日' then 7 else if c = '天' then 7 else 0

/-- The weekday branch of `getScheduledDateFromText` (source lines 90–119)
together with the final `return null`.  `now` is the resolver's own
`new Date()` read. -/
def weekdayResolve (now : JSDate) (content : List Char) : Option JSDate :=
  match firstWeekMatch content with
  | some (whenTok, dayChar) =>
    let targetWeekday := weekdayVal dayChar
    if targetWeekday ≠ 0 then
      let currentWeekday := if jsGetDay now = 0 then 7 else jsGetDay now
      let diff0 := targetWeekday - currentWeekday
      let diff1 := if diff0 < 0 then diff0 + 7 else diff0
      let diff2 :=
        if containsL "下周".data whenTok || containsL "下星期".data whenTok then
          diff1 + 7
        else diff1
      some (jsSetDate now (jsGetDate now + diff2))
    else none
  | none => none

/-- `getScheduledDateFromText` (source lines 51–122).  The `now` parameter
models the `new Date()` the function itself performs on entry (line 52). -/
def getScheduledDateFromText (now : JSDate) (text : String) : Option JSDate :=
  let content := wsStrip text
  if containsL "大后天".data content then
    some (jsSetDate now (jsGetDate now + 3))
  else if containsL "后天".data content then
    some (jsSetDate now (jsGetDate now + 2))
  else if containsL "明天".data content || containsL "明日".data content then
    some (jsSetDate now (jsGetDate now + 1))
  else if containsL "今天".data content || containsL "今日".data content ||
      containsL "今儿".data content then
    some now
  else
    match firstDayNum content with
    | some day =>
      if 1 ≤ day ∧ day ≤ 31 then
        let d := jsMkDate (jsGetFullYear now) (jsGetMonth now) day
        if d.epochMs < (jsMkDate (jsGetFullYear now) (jsGetMonth now)
            (jsGetDate now)).epochMs then
          some (jsMkDate (jsGetFullYear now) (jsGetMonth now + 1) day)
        else some d
      else weekdayResolve now content
    | none => weekdayResolve now content

/-- The four canonical categories (`TaskTag`): 生活/购物, 本业工作,
拉面店创业, Web开发学习. -/
inductive TaskTag where
  | life
  | work
  | ramen
  | webdev
  deriving DecidableEq, Repr

/-- ASCII lowering, the fragment of `String.prototype.toLowerCase` relevant
to the keyword alphabet (Latin keywords are pure ASCII; CJK characters are
case-less). -/
def lowerChar (c : Char) : Char :=
  if 'A' ≤ c && c ≤ 'Z' then Char.ofNat (c.toNat + 32) else c

/-- `content.toLowerCase()`. -/
def jsToLower (s : String) : String := ⟨s.data.map lowerChar⟩

/-- The business-venture keyword test (`isRamen`, source line 223). -/
def ramenHit (content : String) : Bool :=
  containsAnyStr content
    ["拉面", "汤底", "高汤", "面条", "店铺", "选址", "租金", "装修", "门店",
      "开店", "创业", "财务", "成本", "利润"]

/-- The technology-learning keyword test (`isWeb`, source lines 226–229):
matched against `lower + content`, the lower-cased text concatenated with
the original. -/
def webHit (content : String) : Bool :=
  containsAnyStr (jsToLower content ++ content)
    ["react", "javascript", "typescript", "前端", "css", "html", "node",
      "web", "编程", "代码", "教程", "学习", "vite"]

/-- The primary-job keyword test (`isWork`, source line 232), matched
against the original text (case-sensitive). -/
def workHit (content : String) : Bool :=
  containsAnyStr content
    ["报告", "邮件", "同事", "会议", "客户", "项目", "排期", "需求", "上线",
      "测试", "bug", "OKR", "周报", "工作"]

/-- The personal-life keyword test (`isLife`, source line 238). -/
def lifeHit (content : String) : Bool :=
  containsAnyStr content
    ["买", "购买", "购物", "超市", "菜市场", "支付", "家务", "打扫", "整理",
      "洗衣", "做饭", "吃饭", "晚餐", "午餐", "早餐", "外卖", "预约"]

/-- `classify` (source lines 219–245): ordered keyword families, first
match wins, default 本业工作. -/
def classify (content : String) : TaskTag :=
  if ramenHit content then TaskTag.ramen
  else if webHit content then TaskTag.webdev
  else if workHit content then TaskTag.work
  else if lifeHit content then TaskTag.life
  else TaskTag.work

/-- A task produced by the derivation (the source's `Task` record, renamed
because `Task` is taken by the Lean core; the fields are the ones
`processTranscriptToTasks` sets — `tag` is always present and `completed`
always `false` there). -/
structure TaskRec where
  id : String
  type : String
  text : String
  tag : TaskTag
  completed : Bool
  createdAt : String
  deriving DecidableEq, Repr

/-- The segmentation delimiter class `[,，。；;、]` (source line 197). -/
def isDelimChar (c : Char) : Bool :=
  c = ',' || c = '，' || c = '。' || c = '；' || c = ';' || c = '、'

/-- `text.split(/[,，。；;、]/)` on the character list (empty pieces kept,
as in JavaScript). -/
def splitDelim : List Char → List (List Char)
  | [] => [[]]
  | c :: rest =>
    if isDelimChar c then [] :: splitDelim rest
    else
      match splitDelim rest with
      | h :: t => (c :: h) :: t
      | [] => [[c]]

/-- `rawItems` (source lines 196–199): split, trim each piece, drop empties. -/
def rawItemsOf (text : String) : List String :=
  (((splitDelim text.data).map (fun l => (⟨l⟩ : String))).map jsTrim).filter
    (fun s => s ≠ "")

/-- `cleanedItems` (source lines 201–204): strip date words from each raw
item, trim, drop empties. -/
def cleanedItemsOf (text : String) : List String :=
  (((rawItemsOf text).map stripDateWords).map jsTrim).filter (fun s => s ≠ "")

/-- `processTranscriptToTasks` (source lines 190–255).  `now` models the
`new Date()` read on line 191; `resolverNow` models the independent
`new Date()` read inside `getScheduledDateFromText` (line 52). -/
def processTranscriptToTasks (now resolverNow : JSDate) (text : String) :
    List TaskRec :=
  let scheduled := getScheduledDateFromText resolverNow text
  let base := scheduled.getD now
  let baseISO := isoString base
  if cleanedItemsOf text = [] then
    [{ id := baseISO ++ "-0", type := "todo",
       text := (if jsTrim (stripDateWords text) = "" then jsTrim text
                else jsTrim (stripDateWords text)),
       tag := TaskTag.work, completed := false, createdAt := baseISO }]
  else
    (cleanedItemsOf text).enum.map (fun p =>
      { id := baseISO ++ "-" ++ toString p.1, type := "todo", text := p.2,
        tag := classify p.2, completed := false, createdAt := baseISO })

/-- The disjunction of the four relative-day tests (rules checked before
the absolute-day and weekday rules). -/
def relAnyB (c : List Char) : Bool :=
  containsL "大后天".data c || containsL "后天".data c ||
    containsL "明天".data c || containsL "明日".data c ||
    containsL "今天".data c || containsL "今日".data c ||
    containsL "今儿".data c

/-- Whether the absolute day-of-month rule fires on the content: a
`(\d{1,2})[号日]` match whose value lies in `1..31`. -/
def dayRuleB (c : List Char) : Bool :=
  match firstDayNum c with
  | some n => decide (1 ≤ n ∧ n ≤ 31)
  | none => false

/-- The day offset the weekday rule computes, as the specification
describes it: `target - current` (ISO weekday 1–7), plus 7 when negative,
plus a further unconditional 7 for a 下周/下星期 prefix. -/
def weekDiff (now : JSDate) (whenTok : List Char) (dayChar : Char) : ℤ :=
  let target := weekdayVal dayChar
  let current := if jsGetDay now = 0 then 7 else jsGetDay now
  let base := target - current
  let adjusted := if base < 0 then base + 7 else base
  if containsL "下周".data whenTok || containsL "下星期".data whenTok then
    adjusted + 7
  else adjusted

/-- Whether pattern `f` matches at some position of `l` (i.e. the
`replace` pass for `f` would delete something). -/
def anyMatch (f : List Char → Option Nat) : List Char → Bool
  | [] => (f []).isSome
  | c :: rest => (f (c :: rest)).isSome || anyMatch f rest

/-- Whether any of the ten date patterns of `stripDateWords` matches
somewhere in `s`. -/
def anyPatternMatch (s : String) : Bool :=
  stripPatterns.any (fun f => anyMatch f s.data)

/-- Whether a character list starts with a whitespace character. -/
def firstWs : List Char → Bool
  | [] => false
  | c :: _ => jsIsSpace c

/-- No two adjacent whitespace characters anywhere in the list. -/
def noAdjWs : List Char → Bool
  | a :: b :: rest => !(jsIsSpace a && jsIsSpace b) && noAdjWs (b :: rest)
  | _ => true

/-- Sample instant 2024-06-20T12:14:56.789Z (a Thursday, day of month 20). -/
def jdThu : JSDate := ⟨1718885696789⟩

/-- Sample instant 2024-06-19T09:00:00.000Z (a Wednesday). -/
def jdWed : JSDate := ⟨1718787600000⟩

/-- `jdThu` shifted one day later (2024-06-21T12:14:56.789Z). -/
def jdThuNext : JSDate := ⟨1718885696789 + 86400000⟩

/-- `jdThu` shifted two days later (2024-06-22T12:14:56.789Z). -/
def jdThuNext2 : JSDate := ⟨1718885696789 + 2 * 86400000⟩

/-! ### Helper lemmas about the embedding -/

theorem jsSetDate_shift (d : JSDate) (k : ℤ) :
    jsSetDate d (jsGetDate d + k) = ⟨d.epochMs + k * dayMs⟩ := by
  unfold jsSetDate
  congr 1
  ring

theorem containsL_substring_iff (p l : List Char) :
    containsL p l = true ↔ p <:+: l := by
  induction l with
  | nil =>
    simp [containsL, List.isEmpty_iff]
  | cons c rest ih =>
    rw [containsL, Bool.or_eq_true, List.isPrefixOf_iff_prefix, ih,
      List.infix_cons_iff]

theorem wsStrip_contains (p : List Char) (t : String)
    (hp : ∀ c ∈ p, jsIsSpace c = false) (h : containsL p t.data = true) :
    containsL p (wsStrip t) = true := by
  rw [containsL_substring_iff] at h ⊢
  obtain ⟨u, v, huv⟩ := h
  unfold wsStrip
  rw [← huv, List.filter_append, List.filter_append]
  have hfp : p.filter (fun c => !(jsIsSpace c)) = p := by
    apply List.filter_eq_self.mpr
    intro c hc
    simp [hp c hc]
  rw [hfp]
  exact ⟨u.filter _, v.filter _, rfl⟩

theorem gs_dahoutian (now : JSDate) (t : String)
    (h : containsL "大后天".data (wsStrip t) = true) :
    getScheduledDateFromText now t = some ⟨now.epochMs + 3 * dayMs⟩ := by
  unfold getScheduledDateFromText
  simp only [h, if_true]
  rw [jsSetDate_shift]

theorem gs_houtian (now : JSDate) (t : String)
    (h0 : containsL "大后天".data (wsStrip t) = false)
    (h : containsL "后天".data (wsStrip t) = true) :
    getScheduledDateFromText now t = some ⟨now.epochMs + 2 * dayMs⟩ := by
  unfold getScheduledDateFromText
  simp only [h0, h, if_true, Bool.false_eq_true, if_false]
  rw [jsSetDate_shift]

theorem gs_mingtian (now : JSDate) (t : String)
    (h0 : containsL "大后天".data (wsStrip t) = false)
    (h1 : containsL "后天".data (wsStrip t) = false)
    (h : containsL "明天".data (wsStrip t) = true ∨
      containsL "明日".data (wsStrip t) = true) :
    getScheduledDateFromText now t = some ⟨now.epochMs + 1 * dayMs⟩ := by
  unfold getScheduledDateFromText
  rcases h with h | h <;>
    simp only [h0, h1, h, Bool.true_or, Bool.or_true, if_true,
      Bool.false_eq_true, if_false] <;>
    rw [jsSetDate_shift]

theorem gs_jintian (now : JSDate) (t : String)
    (h0 : containsL "大后天".data (wsStrip t) = false)
    (h1 : containsL "后天".data (wsStrip t) = false)
    (h2 : containsL "明天".data (wsStrip t) = false)
    (h3 : containsL "明日".data (wsStrip t) = false)
    (h : containsL "今天".data (wsStrip t) = true ∨
      containsL "今日".data (wsStrip t) = true ∨
      containsL "今儿".data (wsStrip t) = true) :
    getScheduledDateFromText now t = some now := by
  unfold getScheduledDateFromText
  rcases h with h | h | h <;>
    simp [h0, h1, h2, h3, h]

theorem relAnyB_false_parts (c : List Char) (h : relAnyB c = false) :
    containsL "大后天".data c = false ∧ containsL "后天".data c = false ∧
      containsL "明天".data c = false ∧ containsL "明日".data c = false ∧
      containsL "今天".data c = false ∧ containsL "今日".data c = false ∧
      containsL "今儿".data c = false := by
  have h' := h
  simp only [relAnyB, Bool.or_eq_false_iff] at h'
  tauto

theorem gs_absolute (now : JSDate) (t : String) (n : ℤ)
    (hrel : relAnyB (wsStrip t) = false)
    (hd : firstDayNum (wsStrip t) = some n) (h1 : 1 ≤ n) (h2 : n ≤ 31) :
    getScheduledDateFromText now t =
      some (if n < jsGetDate now
        then jsMkDate (jsGetFullYear now) (jsGetMonth now + 1) n
        else jsMkDate (jsGetFullYear now) (jsGetMonth now) n) := by
  obtain ⟨ha, hb, hc, hd', he, hf, hg⟩ := relAnyB_false_parts _ hrel
  unfold getScheduledDateFromText
  simp only [ha, hb, hc, hd', he, hf, hg, Bool.or_self, Bool.false_eq_true,
    if_false, hd]
  rw [if_pos ⟨h1, h2⟩]
  have hiff : (jsMkDate (jsGetFullYear now) (jsGetMonth now) n).epochMs <
      (jsMkDate (jsGetFullYear now) (jsGetMonth now)
        (jsGetDate now)).epochMs ↔ n < jsGetDate now := by
    simp only [jsMkDate, daysFromCivil, dayMs]
    omega
  simp only [hiff]
  by_cases hlt : n < jsGetDate now <;> simp [hlt]

theorem gs_absolute_oor (now : JSDate) (t : String) (n : ℤ)
    (hrel : relAnyB (wsStrip t) = false)
    (hd : firstDayNum (wsStrip t) = some n) (hoor : ¬(1 ≤ n ∧ n ≤ 31)) :
    getScheduledDateFromText now t = weekdayResolve now (wsStrip t) := by
  obtain ⟨ha, hb, hc, hd', he, hf, hg⟩ := relAnyB_false_parts _ hrel
  unfold getScheduledDateFromText
  simp only [ha, hb, hc, hd', he, hf, hg, Bool.or_self, Bool.false_eq_true,
    if_false, hd]
  rw [if_neg hoor]

theorem gs_noday (now : JSDate) (t : String)
    (hrel : relAnyB (wsStrip t) = false)
    (hd : firstDayNum (wsStrip t) = none) :
    getScheduledDateFromText now t = weekdayResolve now (wsStrip t) := by
  obtain ⟨ha, hb, hc, hd', he, hf, hg⟩ := relAnyB_false_parts _ hrel
  unfold getScheduledDateFromText
  simp only [ha, hb, hc, hd', he, hf, hg, Bool.or_self, Bool.false_eq_true,
    if_false, hd]

theorem weekAlt_weekday (ps : List (List Char)) (l w : List Char) (ch : Char)
    (h : weekAlt ps l = some (w, ch)) : isWeekdayChar ch = true := by
  induction ps generalizing l with
  | nil => simp [weekAlt] at h
  | cons p ps ih =>
    unfold weekAlt at h
    split at h
    · split at h
      · split at h
        · simp only [Option.some.injEq, Prod.mk.injEq] at h
          obtain ⟨h1, h2⟩ := h
          subst h2
          assumption
        · exact ih _ h
      · exact ih _ h
    · exact ih _ h

theorem firstWeekMatch_weekday (c w : List Char) (ch : Char)
    (h : firstWeekMatch c = some (w, ch)) : isWeekdayChar ch = true := by
  induction c with
  | nil => simp [firstWeekMatch] at h
  | cons x rest ih =>
    unfold firstWeekMatch at h
    split at h
    · simp only [Option.some.injEq] at h
      subst h
      exact weekAlt_weekday _ _ _ _ (by assumption)
    · exact ih h

theorem weekdayVal_ne_zero (ch : Char) (h : isWeekdayChar ch = true) :
    weekdayVal ch ≠ 0 := by
  unfold weekdayVal
  split_ifs with h1 h2 h3 h4 h5 h6 h7 h8 <;> try norm_num
  simp [isWeekdayChar, h1, h2, h3, h4, h5, h6, h7, h8] at h

theorem wr_week (now : JSDate) (c w : List Char) (ch : Char)
    (h : firstWeekMatch c = some (w, ch)) :
    weekdayResolve now c = some ⟨now.epochMs + weekDiff now w ch * dayMs⟩ := by
  unfold weekdayResolve
  rw [h]
  have hne := weekdayVal_ne_zero ch (firstWeekMatch_weekday _ _ _ h)
  simp only [ne_eq, hne, not_false_iff, if_true]
  rw [jsSetDate_shift]
  rfl

theorem wr_none (now : JSDate) (c : List Char)
    (h : firstWeekMatch c = none) : weekdayResolve now c = none := by
  unfold weekdayResolve
  rw [h]

theorem stripGo_id (f : List Char → Option Nat) (fuel : Nat) (l : List Char)
    (h : anyMatch f l = false) : stripGo f fuel l = l := by
  induction fuel generalizing l with
  | zero => cases l <;> rfl
  | succ fuel ih =>
    cases l with
    | nil => rfl
    | cons c rest =>
      rw [anyMatch, Bool.or_eq_false_iff] at h
      obtain ⟨h1, h2⟩ := h
      have h1' : f (c :: rest) = none := by
        cases hf : f (c :: rest) <;> simp [hf] at h1 ⊢
      simp only [stripGo, h1']
      rw [ih rest h2]

theorem stripAll_id (f : List Char → Option Nat) (l : List Char)
    (h : anyMatch f l = false) : stripAll f l = l :=
  stripGo_id f l.length l h

theorem foldl_stripAll_id (fs : List (List Char → Option Nat))
    (l : List Char) (h : ∀ f ∈ fs, anyMatch f l = false) :
    fs.foldl (fun acc f => stripAll f acc) l = l := by
  induction fs with
  | nil => rfl
  | cons f fs ih =>
    rw [List.foldl_cons, stripAll_id f l (h f (List.mem_cons_self f fs))]
    exact ih (fun g hg => h g (List.mem_cons_of_mem f hg))

theorem firstWs_dropWhile (l : List Char) :
    firstWs (l.dropWhile jsIsSpace) = false := by
  induction l with
  | nil => rfl
  | cons c rest ih =>
    rw [List.dropWhile_cons]
    by_cases hc : jsIsSpace c = true
    · rw [if_pos hc]
      exact ih
    · rw [if_neg hc]
      unfold firstWs
      exact Bool.not_eq_true _ ▸ (by simpa using hc)

theorem noAdjWs_tail (x : Char) (t : List Char)
    (h : noAdjWs (x :: t) = true) : noAdjWs t = true := by
  cases t with
  | nil => rfl
  | cons y r =>
    rw [noAdjWs, Bool.and_eq_true] at h
    exact h.2

theorem noAdjWs_dropWhile (l : List Char) (h : noAdjWs l = true) :
    noAdjWs (l.dropWhile jsIsSpace) = true := by
  induction l with
  | nil => exact h
  | cons c rest ih =>
    rw [List.dropWhile_cons]
    by_cases hc : jsIsSpace c = true
    · rw [if_pos hc]
      exact ih (noAdjWs_tail c rest h)
    · rw [if_neg hc]
      exact h

theorem collapseGo_props (fuel : Nat) : ∀ l : List Char, l.length ≤ fuel →
    noAdjWs (collapseGo fuel l) = true ∧
      (firstWs (collapseGo fuel l) = true → firstWs l = true) := by
  induction fuel with
  | zero =>
    intro l hl
    have hnil : l = [] := List.length_eq_zero.mp (Nat.le_zero.mp hl)
    subst hnil
    exact ⟨rfl, fun h => h⟩
  | succ fuel ih =>
    intro l hl
    match l with
    | [] => exact ⟨rfl, fun h => h⟩
    | [c] => exact ⟨rfl, fun h => h⟩
    | a :: b :: rest =>
      cases hab : (jsIsSpace a && jsIsSpace b) with
      | true =>
        have hout : collapseGo (fuel + 1) (a :: b :: rest) =
            ' ' :: collapseGo fuel (rest.dropWhile jsIsSpace) := by
          simp only [collapseGo, hab, if_true]
        have hlen : (rest.dropWhile jsIsSpace).length ≤ fuel := by
          have hd := (List.dropWhile_sublist (p := jsIsSpace) (l := rest)).length_le
          simp only [List.length_cons] at hl
          omega
        obtain ⟨hIH1, hIH2⟩ := ih (rest.dropWhile jsIsSpace) hlen
        constructor
        · rw [hout]
          cases hout2 : collapseGo fuel (rest.dropWhile jsIsSpace) with
          | nil => rfl
          | cons d t =>
            have hwd : jsIsSpace d = false := by
              cases hx : jsIsSpace d with
              | false => rfl
              | true =>
                have hfw : firstWs (collapseGo fuel
                    (rest.dropWhile jsIsSpace)) = true := by
                  rw [hout2]
                  unfold firstWs
                  exact hx
                have := hIH2 hfw
                rw [firstWs_dropWhile] at this
                exact absurd this (by simp)
            rw [noAdjWs, hwd]
            simp only [Bool.and_false, Bool.not_false, Bool.true_and]
            rw [← hout2]
            exact hIH1
        · intro _
          unfold firstWs
          exact ((Bool.and_eq_true _ _).mp hab).1
      | false =>
        have hout : collapseGo (fuel + 1) (a :: b :: rest) =
            a :: collapseGo fuel (b :: rest) := by
          simp only [collapseGo, hab, Bool.false_eq_true, if_false]
        have hlen : (b :: rest).length ≤ fuel := by
          simp only [List.length_cons] at hl ⊢
          omega
        obtain ⟨hIH1, hIH2⟩ := ih (b :: rest) hlen
        constructor
        · rw [hout]
          cases hout2 : collapseGo fuel (b :: rest) with
          | nil => rfl
          | cons d t =>
            rw [noAdjWs]
            apply (Bool.and_eq_true _ _).mpr
            constructor
            · cases hwd : jsIsSpace d with
              | false => simp [hwd]
              | true =>
                have hfb : firstWs (b :: rest) = true := by
                  apply hIH2
                  rw [hout2]
                  simp only [firstWs]
                  exact hwd
                simp only [firstWs] at hfb
                have hwa : jsIsSpace a = false := by
                  cases hx : jsIsSpace a with
                  | false => rfl
                  | true => rw [hx, hfb] at hab; simp at hab
                simp [hwa]
            · rw [← hout2]
              exact hIH1
        · intro h
          rw [hout] at h
          unfold firstWs at h ⊢
          exact h

theorem collapseGo_id (fuel : Nat) : ∀ l : List Char, noAdjWs l = true →
    collapseGo fuel l = l := by
  induction fuel with
  | zero =>
    intro l _
    cases l with
    | nil => rfl
    | cons c rest => rfl
  | succ fuel ih =>
    intro l h
    match l with
    | [] => rfl
    | [c] => rfl
    | a :: b :: rest =>
      rw [noAdjWs, Bool.and_eq_true] at h
      obtain ⟨h1, h2⟩ := h
      have hab : (jsIsSpace a && jsIsSpace b) = false := by
        cases hx : (jsIsSpace a && jsIsSpace b) with
        | false => rfl
        | true => rw [hx] at h1; simp at h1
      simp only [collapseGo, hab, Bool.false_eq_true, if_false]
      rw [ih (b :: rest) h2]

theorem trimR_cons_eq (c : Char) (rest : List Char) :
    trimR (c :: rest) =
      if (trimR rest).isEmpty then (if jsIsSpace c then [] else [c])
      else c :: trimR rest := rfl

theorem trimR_cons_head (l : List Char) (c : Char) (cs : List Char)
    (h : trimR l = c :: cs) : ∃ ds, l = c :: ds := by
  cases l with
  | nil => simp [trimR] at h
  | cons x rest =>
    rw [trimR_cons_eq] at h
    by_cases hemp : (trimR rest).isEmpty = true
    · rw [if_pos hemp] at h
      by_cases hx : jsIsSpace x = true
      · rw [if_pos hx] at h
        simp at h
      · rw [if_neg hx, List.cons.injEq] at h
        exact ⟨rest, by rw [h.1]⟩
    · rw [if_neg hemp, List.cons.injEq] at h
      exact ⟨rest, by rw [h.1]⟩

theorem trimR_noAdj (l : List Char) (h : noAdjWs l = true) :
    noAdjWs (trimR l) = true := by
  induction l with
  | nil => rfl
  | cons x rest ih =>
    have hrest := noAdjWs_tail x rest h
    rw [trimR_cons_eq]
    by_cases hemp : (trimR rest).isEmpty = true
    · rw [if_pos hemp]
      by_cases hx : jsIsSpace x = true
      · rw [if_pos hx]
        rfl
      · rw [if_neg hx]
        rfl
    · rw [if_neg hemp]
      cases htr : trimR rest with
      | nil => rw [htr] at hemp; simp at hemp
      | cons d t =>
        rw [noAdjWs]
        apply (Bool.and_eq_true _ _).mpr
        constructor
        · obtain ⟨ds, hds⟩ := trimR_cons_head rest d t htr
          rw [hds, noAdjWs] at h
          exact ((Bool.and_eq_true _ _).mp h).1
        · rw [← htr]
          exact ih hrest

theorem trimR_idem (l : List Char) : trimR (trimR l) = trimR l := by
  induction l with
  | nil => rfl
  | cons x rest ih =>
    by_cases hemp : (trimR rest).isEmpty = true
    · by_cases hx : jsIsSpace x = true
      · have h1 : trimR (x :: rest) = [] := by
          rw [trimR_cons_eq, if_pos hemp, if_pos hx]
        rw [h1]
        rfl
      · have h1 : trimR (x :: rest) = [x] := by
          rw [trimR_cons_eq, if_pos hemp, if_neg hx]
        rw [h1]
        rw [show trimR [x] = trimR (x :: ([] : List Char)) from rfl,
          trimR_cons_eq]
        simp [trimR, hx]
    · have h1 : trimR (x :: rest) = x :: trimR rest := by
        rw [trimR_cons_eq, if_neg hemp]
      rw [h1, trimR_cons_eq, ih, if_neg hemp]

theorem firstWs_trimR (l : List Char) (h : firstWs l = false) :
    firstWs (trimR l) = false := by
  cases htr : trimR l with
  | nil => rfl
  | cons c cs =>
    obtain ⟨ds, hds⟩ := trimR_cons_head l c cs htr
    rw [hds] at h
    exact h

theorem dropWhile_eq_self_of_firstWs (l : List Char)
    (h : firstWs l = false) : l.dropWhile jsIsSpace = l := by
  cases l with
  | nil => rfl
  | cons c rest =>
    rw [List.dropWhile_cons, if_neg]
    simp only [firstWs] at h
    simp [h]

theorem jsTrimList_firstWs (l : List Char) :
    firstWs (jsTrimList l) = false := by
  unfold jsTrimList
  exact firstWs_trimR _ (firstWs_dropWhile l)

theorem jsTrimList_noAdj (l : List Char) (h : noAdjWs l = true) :
    noAdjWs (jsTrimList l) = true := by
  unfold jsTrimList
  exact trimR_noAdj _ (noAdjWs_dropWhile l h)

theorem jsTrimList_idem (l : List Char) :
    jsTrimList (jsTrimList l) = jsTrimList l := by
  have h1 : List.dropWhile jsIsSpace (jsTrimList l) = jsTrimList l :=
    dropWhile_eq_self_of_firstWs _ (jsTrimList_firstWs l)
  show trimR (List.dropWhile jsIsSpace (jsTrimList l)) = jsTrimList l
  rw [h1]
  show trimR (trimR (List.dropWhile jsIsSpace l)) = _
  rw [trimR_idem]
  rfl

theorem containsAnyStr_of_mem (s p : String) (pats : List String)
    (hp : p ∈ pats) (h : containsStr s p = true) :
    containsAnyStr s pats = true := by
  unfold containsAnyStr
  rw [List.any_eq_true]
  exact ⟨p, hp, h⟩

theorem stripDateWords_fixpoint (y : String)
    (hnp : anyPatternMatch y = false)
    (z : List Char) (hform : y.data = jsTrimList (collapseWs z)) :
    stripDateWords y = y := by
  have hall : ∀ f ∈ stripPatterns, anyMatch f y.data = false := by
    intro f hf
    have hx := hnp
    unfold anyPatternMatch at hx
    rw [List.any_eq_false] at hx
    exact Bool.eq_false_iff.mpr (hx f hf)
  have hfold : stripPatterns.foldl (fun acc f => stripAll f acc) y.data
      = y.data := foldl_stripAll_id _ _ hall
  have hnadj : noAdjWs y.data = true := by
    rw [hform]
    exact jsTrimList_noAdj _ ((collapseGo_props z.length z le_rfl).1)
  have hcol : collapseWs y.data = y.data := collapseGo_id _ _ hnadj
  have htrim : jsTrimList y.data = y.data := by
    rw [hform, jsTrimList_idem]
  unfold stripDateWords
  rw [hfold, hcol, htrim]

theorem wr_msOfDay (now : JSDate) (c : List Char) (d : JSDate)
    (hd : weekdayResolve now c = some d) : jsMsOfDay d = jsMsOfDay now := by
  cases hfw : firstWeekMatch c with
  | none =>
    rw [wr_none now c hfw] at hd
    exact absurd hd (by simp)
  | some p =>
    obtain ⟨w, ch⟩ := p
    rw [wr_week now c w ch hfw] at hd
    simp only [Option.some.injEq] at hd
    subst hd
    unfold jsMsOfDay dayMs
    dsimp only
    show (now.epochMs + weekDiff now w ch * 86400000) % 86400000 =
      now.epochMs % 86400000
    rw [Int.add_mul_emod_self]

/-- C6: temporal resolution tries the relative-day rules first, in the
exact order 大后天 (now+3 days), then 后天 (now+2), then 明天/明日 (now+1),
then 今天/今日/今儿 (now itself), returning on the first match.  The first
conjunct makes no assumption about other date vocabulary in the text, so
in particular an utterance containing both 大后天 and a weekday phrase
such as 星期五 resolves to three days after now.  (Matching is performed
on the whitespace-stripped content, exactly as the source strips
whitespace before testing.) -/
theorem c6_relative_day_priority :
    (∀ (now : JSDate) (t : String),
      containsL "大后天".data (wsStrip t) = true →
      getScheduledDateFromText now t = some ⟨now.epochMs + 3 * dayMs⟩) ∧
    (∀ (now : JSDate) (t : String),
      containsL "大后天".data (wsStrip t) = false →
      containsL "后天".data (wsStrip t) = true →
      getScheduledDateFromText now t = some ⟨now.epochMs + 2 * dayMs⟩) ∧
    (∀ (now : JSDate) (t : String),
      containsL "大后天".data (wsStrip t) = false →
      containsL "后天".data (wsStrip t) = false →
      (containsL "明天".data (wsStrip t) = true ∨
        containsL "明日".data (wsStrip t) = true) →
      getScheduledDateFromText now t = some ⟨now.epochMs + 1 * dayMs⟩) ∧
    (∀ (now : JSDate) (t : String),
      containsL "大后天".data (wsStrip t) = false →
      containsL "后天".data (wsStrip t) = false →
      containsL "明天".data (wsStrip t) = false →
      containsL "明日".data (wsStrip t) = false →
      (containsL "今天".data (wsStrip t) = true ∨
        containsL "今日".data (wsStrip t) = true ∨
        containsL "今儿".data (wsStrip t) = true) →
      getScheduledDateFromText now t = some now) :=
  ⟨gs_dahoutian, gs_houtian, gs_mingtian, gs_jintian⟩

/-- C6 witness: on 2024-06-20T12:14:56.789Z, the utterance
大后天星期五交货 (containing both 大后天 and 星期五) resolves to exactly
three days later; the relative-day rule wins over the weekday rule. -/
theorem c6_witness :
    getScheduledDateFromText jdThu "大后天星期五交货" =
      some ⟨jdThu.epochMs + 3 * dayMs⟩ :=
  c6_relative_day_priority.1 jdThu "大后天星期五交货" (by decide)

/-- C7 (amended): for the absolute day-of-month rule, with no
relative-day rule matching and a `(\d{1,2})[号日]` match of value
`1 ≤ n ≤ 31`: when `n` is smaller than now's day of month the resolver
returns `new Date(year, month + 1, n)`, otherwise
`new Date(year, month, n)` — where the JavaScript constructor normalises
day overflow, so when `n` exceeds the length of the target month the
result rolls into the following month rather than being "day n of the
current/next month".  An out-of-range `n` (0, or above 31) does not match
the rule and falls through to the weekday rule. -/
theorem c7_absolute_day_amended :
    (∀ (now : JSDate) (t : String) (n : ℤ),
      relAnyB (wsStrip t) = false →
      firstDayNum (wsStrip t) = some n → 1 ≤ n → n ≤ 31 →
      getScheduledDateFromText now t =
        some (if n < jsGetDate now
          then jsMkDate (jsGetFullYear now) (jsGetMonth now + 1) n
          else jsMkDate (jsGetFullYear now) (jsGetMonth now) n)) ∧
    (∀ (now : JSDate) (t : String) (n : ℤ),
      relAnyB (wsStrip t) = false →
      firstDayNum (wsStrip t) = some n → ¬(1 ≤ n ∧ n ≤ 31) →
      getScheduledDateFromText now t = weekdayResolve now (wsStrip t)) :=
  ⟨fun now t n hrel hd h1 h2 => gs_absolute now t n hrel hd h1 h2,
   fun now t n hrel hd hoor => gs_absolute_oor now t n hrel hd hoor⟩

/-- C7 counterexample: on 2024-06-20 (day of month 20), the phrase 31号
satisfies `n = 31 ≥ 20`, so by the claim the resolver should return day
31 of the current month (June); instead it returns 2024-07-01, because
`new Date(2024, 5, 31)` normalises June 31 to July 1. -/
theorem c7_counterexample :
    (getScheduledDateFromText jdThu "交31号材料").map
        (fun d => civilFromDays (jsDays d)) = some (2024, 7, 1) ∧
      (getScheduledDateFromText jdThu "交31号材料").map
        (fun d => civilFromDays (jsDays d)) ≠ some (2024, 6, 31) := by
  constructor
  · decide
  · decide

/-- C7 witness: the specification's own example — on the 20th of a month,
5号 resolves to the 5th of the next month (2024-07-05). -/
theorem c7_witness :
    getScheduledDateFromText jdThu "5号交租" = some (jsMkDate 2024 6 5) := by
  have h := c7_absolute_day_amended.1 jdThu "5号交租" 5 (by decide) (by decide)
    (by decide) (by decide)
  rw [h]
  decide

/-- C8: the weekday rule (with no earlier-priority rule matching): with
`currentWeekday` in 1 (Mon) … 7 (Sun) and `diff = target − current`, the
resolver adds 7 when `diff < 0`, and a 下周/下星期 prefix adds a further
7 unconditionally; the result shifts `now` by that many days (`weekDiff`
spells out exactly the computation the specification describes).  In
particular, when now is a Wednesday, 下周三 resolves to exactly 7 days
after now. -/
theorem c8_weekday_rule :
    (∀ (now : JSDate) (t : String) (w : List Char) (ch : Char),
      relAnyB (wsStrip t) = false →
      dayRuleB (wsStrip t) = false →
      firstWeekMatch (wsStrip t) = some (w, ch) →
      getScheduledDateFromText now t =
        some ⟨now.epochMs + weekDiff now w ch * dayMs⟩) ∧
    (∀ now : JSDate, jsGetDay now = 3 →
      getScheduledDateFromText now "下周三" =
        some ⟨now.epochMs + 7 * dayMs⟩) := by
  have hmain : ∀ (now : JSDate) (t : String) (w : List Char) (ch : Char),
      relAnyB (wsStrip t) = false →
      dayRuleB (wsStrip t) = false →
      firstWeekMatch (wsStrip t) = some (w, ch) →
      getScheduledDateFromText now t =
        some ⟨now.epochMs + weekDiff now w ch * dayMs⟩ := by
    intro now t w ch hrel hday hfw
    unfold dayRuleB at hday
    cases hfd : firstDayNum (wsStrip t) with
    | none =>
      rw [gs_noday now t hrel hfd]
      exact wr_week now _ w ch hfw
    | some n =>
      rw [hfd] at hday
      dsimp only at hday
      have hoor : ¬(1 ≤ n ∧ n ≤ 31) := of_decide_eq_false hday
      rw [gs_absolute_oor now t n hrel hfd hoor]
      exact wr_week now _ w ch hfw
  refine ⟨hmain, ?_⟩
  intro now h3
  have h := hmain now "下周三" "下周".data '三' (by decide) (by decide)
    (by decide)
  rw [h]
  have hdiff : weekDiff now "下周".data '三' = 7 := by
    unfold weekDiff
    rw [h3]
    decide
  rw [hdiff]

/-- C8 witness: 2024-06-19T09:00:00.000Z is a Wednesday, and 下周三
resolves to the instant exactly 7 days later. -/
theorem c8_witness :
    getScheduledDateFromText jdWed "下周三" =
      some ⟨jdWed.epochMs + 7 * dayMs⟩ :=
  c8_weekday_rule.2 jdWed (by decide)

/-- C3 (amended): the resolver preserves now's time of day for the
relative-day rules and the weekday rule (the anchor is the resolved date
combined with the moment of derivation), but the absolute day-of-month
rule returns local midnight of the resolved date — not now's time of
day. -/
theorem c3_anchor_time_of_day_amended :
    ∀ (now : JSDate) (t : String) (d : JSDate),
    getScheduledDateFromText now t = some d →
    ((relAnyB (wsStrip t) = true ∨ dayRuleB (wsStrip t) = false) →
      jsMsOfDay d = jsMsOfDay now) ∧
    (relAnyB (wsStrip t) = false → dayRuleB (wsStrip t) = true →
      jsMsOfDay d = 0) := by
  intro now t d hd
  have hshift : ∀ k : ℤ, jsMsOfDay ⟨now.epochMs + k * dayMs⟩ = jsMsOfDay now := by
    intro k
    unfold jsMsOfDay dayMs
    dsimp only
    show (now.epochMs + k * 86400000) % 86400000 = now.epochMs % 86400000
    rw [Int.add_mul_emod_self]
  cases hb1 : containsL "大后天".data (wsStrip t) with
  | true =>
    rw [gs_dahoutian now t hb1] at hd
    simp only [Option.some.injEq] at hd
    subst hd
    refine ⟨fun _ => hshift 3, fun hrel _ => ?_⟩
    unfold relAnyB at hrel
    rw [hb1] at hrel
    simp at hrel
  | false =>
  cases hb2 : containsL "后天".data (wsStrip t) with
  | true =>
    rw [gs_houtian now t hb1 hb2] at hd
    simp only [Option.some.injEq] at hd
    subst hd
    refine ⟨fun _ => hshift 2, fun hrel _ => ?_⟩
    unfold relAnyB at hrel
    rw [hb2] at hrel
    simp at hrel
  | false =>
  cases hb3 : containsL "明天".data (wsStrip t) with
  | true =>
    rw [gs_mingtian now t hb1 hb2 (Or.inl hb3)] at hd
    simp only [Option.some.injEq] at hd
    subst hd
    refine ⟨fun _ => hshift 1, fun hrel _ => ?_⟩
    unfold relAnyB at hrel
    rw [hb3] at hrel
    simp at hrel
  | false =>
  cases hb4 : containsL "明日".data (wsStrip t) with
  | true =>
    rw [gs_mingtian now t hb1 hb2 (Or.inr hb4)] at hd
    simp only [Option.some.injEq] at hd
    subst hd
    refine ⟨fun _ => hshift 1, fun hrel _ => ?_⟩
    unfold relAnyB at hrel
    rw [hb4] at hrel
    simp at hrel
  | false =>
  cases hb5 : containsL "今天".data (wsStrip t) with
  | true =>
    rw [gs_jintian now t hb1 hb2 hb3 hb4 (Or.inl hb5)] at hd
    simp only [Option.some.injEq] at hd
    subst hd
    refine ⟨fun _ => rfl, fun hrel _ => ?_⟩
    unfold relAnyB at hrel
    rw [hb5] at hrel
    simp at hrel
  | false =>
  cases hb6 : containsL "今日".data (wsStrip t) with
  | true =>
    rw [gs_jintian now t hb1 hb2 hb3 hb4 (Or.inr (Or.inl hb6))] at hd
    simp only [Option.some.injEq] at hd
    subst hd
    refine ⟨fun _ => rfl, fun hrel _ => ?_⟩
    unfold relAnyB at hrel
    rw [hb6] at hrel
    simp at hrel
  | false =>
  cases hb7 : containsL "今儿".data (wsStrip t) with
  | true =>
    rw [gs_jintian now t hb1 hb2 hb3 hb4 (Or.inr (Or.inr hb7))] at hd
    simp only [Option.some.injEq] at hd
    subst hd
    refine ⟨fun _ => rfl, fun hrel _ => ?_⟩
    unfold relAnyB at hrel
    rw [hb7] at hrel
    simp at hrel
  | false =>
  have hrelF : relAnyB (wsStrip t) = false := by
    unfold relAnyB
    rw [hb1, hb2, hb3, hb4, hb5, hb6, hb7]
    rfl
  cases hfd : firstDayNum (wsStrip t) with
  | some n =>
    by_cases hnr : 1 ≤ n ∧ n ≤ 31
    · rw [gs_absolute now t n hrelF hfd hnr.1 hnr.2] at hd
      simp only [Option.some.injEq] at hd
      subst hd
      have hdayT : dayRuleB (wsStrip t) = true := by
        unfold dayRuleB
        rw [hfd]
        dsimp only
        exact decide_eq_true hnr
      constructor
      · intro hcase
        exfalso
        rcases hcase with hc | hc
        · rw [hrelF] at hc
          simp at hc
        · rw [hdayT] at hc
          simp at hc
      · intro _ _
        have hmid : ∀ y m k : ℤ, jsMsOfDay (jsMkDate y m k) = 0 := by
          intro y m k
          unfold jsMsOfDay jsMkDate dayMs
          dsimp only
          exact Int.mul_emod_left _ _
        by_cases hlt : n < jsGetDate now
        · rw [if_pos hlt]
          exact hmid _ _ _
        · rw [if_neg hlt]
          exact hmid _ _ _
    · rw [gs_absolute_oor now t n hrelF hfd hnr] at hd
      have hms := wr_msOfDay now _ d hd
      have hdayF : dayRuleB (wsStrip t) = false := by
        unfold dayRuleB
        rw [hfd]
        dsimp only
        exact decide_eq_false hnr
      refine ⟨fun _ => hms, fun _ hdT => ?_⟩
      rw [hdayF] at hdT
      simp at hdT
  | none =>
    rw [gs_noday now t hrelF hfd] at hd
    have hms := wr_msOfDay now _ d hd
    have hdayF : dayRuleB (wsStrip t) = false := by
      unfold dayRuleB
      rw [hfd]
    refine ⟨fun _ => hms, fun _ hdT => ?_⟩
    rw [hdayF] at hdT
    simp at hdT

/-- C3 counterexample: on 2024-06-20T12:14:56.789Z (time of day 44096789
ms), the utterance 15号开会 resolves through the absolute day-of-month
rule to 2024-07-15 at local midnight, and the whole batch is stamped
2024-07-15T00:00:00.000Z — midnight of the resolved date, not the
resolved date combined with now's time of day. -/
theorem c3_counterexample :
    (getScheduledDateFromText jdThu "15号开会").map jsMsOfDay = some 0 ∧
      jsMsOfDay jdThu = 44096789 ∧
      (processTranscriptToTasks jdThu jdThu "15号开会").map
        (fun tk => tk.createdAt) = ["2024-07-15T00:00:00.000Z"] := by
  refine ⟨by decide, by decide, by decide⟩

/-- C3 witness: a relative-day resolution (明天开会) preserves now's time
of day. -/
theorem c3_witness :
    jsMsOfDay ⟨jdThu.epochMs + 1 * dayMs⟩ = jsMsOfDay jdThu :=
  (c3_anchor_time_of_day_amended jdThu "明天开会"
    ⟨jdThu.epochMs + 1 * dayMs⟩ (by decide)).1 (Or.inl (by decide))

/-- C9: the classifier is total on cleaned item text — every output is one
of the four canonical categories; the keyword families are checked in the
fixed order venture (拉面店创业), tech-learning (Web开发学习), primary-job
(本业工作), personal-life (生活/购物) with first match winning; when no
family matches, the fallback is 本业工作.  In particular any text
containing 拉面 or 选址 — even one also containing the life keyword 买 —
classifies as the venture category. -/
theorem c9_classifier_total_ordered :
    (∀ s : String, classify s = TaskTag.ramen ∨ classify s = TaskTag.webdev ∨
      classify s = TaskTag.work ∨ classify s = TaskTag.life) ∧
    (∀ s : String, containsStr s "拉面" = true ∨ containsStr s "选址" = true →
      classify s = TaskTag.ramen) ∧
    (∀ s : String, ramenHit s = false → webHit s = true →
      classify s = TaskTag.webdev) ∧
    (∀ s : String, ramenHit s = false → webHit s = false →
      workHit s = true → classify s = TaskTag.work) ∧
    (∀ s : String, ramenHit s = false → webHit s = false →
      workHit s = false → lifeHit s = true → classify s = TaskTag.life) ∧
    (∀ s : String, ramenHit s = false → webHit s = false →
      workHit s = false → lifeHit s = false → classify s = TaskTag.work) := by
  refine ⟨?_, ?_, ?_, ?_, ?_, ?_⟩
  · intro s
    unfold classify
    split_ifs <;> simp
  · intro s h
    have hr : ramenHit s = true := by
      rcases h with h | h
      · exact containsAnyStr_of_mem s "拉面" _ (by simp) h
      · exact containsAnyStr_of_mem s "选址" _ (by simp) h
    unfold classify
    rw [if_pos hr]
  · intro s h1 h2
    unfold classify
    rw [if_neg (by simp [h1]), if_pos h2]
  · intro s h1 h2 h3
    unfold classify
    rw [if_neg (by simp [h1]), if_neg (by simp [h2]), if_pos h3]
  · intro s h1 h2 h3 h4
    unfold classify
    rw [if_neg (by simp [h1]), if_neg (by simp [h2]), if_neg (by simp [h3]),
      if_pos h4]
  · intro s h1 h2 h3 h4
    unfold classify
    rw [if_neg (by simp [h1]), if_neg (by simp [h2]), if_neg (by simp [h3]),
      if_neg (by simp [h4])]

/-- C9 witness: 去买拉面 contains both the venture keyword 拉面 and the
life keyword 买, and classifies as the venture category. -/
theorem c9_witness : classify "去买拉面" = TaskTag.ramen :=
  c9_classifier_total_ordered.2.1 "去买拉面" (Or.inl (by decide))

/-- C10: for every input string and every pair of clock reads, the
derivation returns a non-empty list (the embedding is a total function,
so no exception is possible), and in the degenerate case — every
segmented item empty after sanitisation — it returns exactly one fallback
candidate whose category is the default 本业工作. -/
theorem c10_total_nonempty :
    (∀ (now resolverNow : JSDate) (t : String),
      processTranscriptToTasks now resolverNow t ≠ []) ∧
    (∀ (now resolverNow : JSDate) (t : String),
      cleanedItemsOf t = [] →
      (processTranscriptToTasks now resolverNow t).map (fun tk => tk.tag) =
        [TaskTag.work]) := by
  constructor
  · intro now rn t
    unfold processTranscriptToTasks
    by_cases h : cleanedItemsOf t = []
    · simp [h]
    · rw [if_neg h]
      simp only [ne_eq, List.map_eq_nil_iff, List.enum_eq_nil]
      exact h
  · intro now rn t h
    unfold processTranscriptToTasks
    rw [if_pos h]
    rfl

/-- C10 witness: the delimiter-only utterance 。。。 yields exactly one
fallback candidate tagged 本业工作. -/
theorem c10_witness :
    processTranscriptToTasks jdThu jdThu "。。。" ≠ [] ∧
      (processTranscriptToTasks jdThu jdThu "。。。").map (fun tk => tk.tag) =
        [TaskTag.work] :=
  ⟨c10_total_nonempty.1 jdThu jdThu "。。。",
   c10_total_nonempty.2 jdThu jdThu "。。。" (by decide)⟩

/-- C2 counterexample: in 明天，买菜 the segmenter produces the non-empty
raw items 明天 and 买菜; 明天 sanitises to the empty string, and the
derivation silently drops it — the output batch has a single candidate
买菜 and no candidate carrying the trimmed raw text 明天. -/
theorem c2_counterexample :
    rawItemsOf "明天，买菜" = ["明天", "买菜"] ∧
      jsTrim (stripDateWords "明天") = "" ∧
      (processTranscriptToTasks jdThu jdThu "明天，买菜").map
        (fun tk => tk.text) = ["买菜"] ∧
      ¬ "明天" ∈ (processTranscriptToTasks jdThu jdThu "明天，买菜").map
        (fun tk => tk.text) := by
  refine ⟨by decide, by decide, by decide, by decide⟩

/-- C2 (amended): items whose sanitised text is empty are dropped from
the batch: whenever at least one segmented item survives sanitisation,
the emitted candidates' texts are exactly the surviving sanitised items,
in order — there is no per-item fallback to the trimmed raw item text
(the single whole-utterance fallback fires only when every item is
dropped). -/
theorem c2_empty_items_dropped :
    ∀ (now resolverNow : JSDate) (t : String),
    cleanedItemsOf t ≠ [] →
    (processTranscriptToTasks now resolverNow t).map (fun tk => tk.text) =
      cleanedItemsOf t := by
  intro now rn t h
  unfold processTranscriptToTasks
  rw [if_neg h, List.map_map]
  show List.map Prod.snd (cleanedItemsOf t).enum = cleanedItemsOf t
  exact List.enum_map_snd _

/-- C2 witness: for 买菜，写周报 both items survive sanitisation and the
candidate texts equal the cleaned items. -/
theorem c2_witness :
    (processTranscriptToTasks jdThu jdThu "买菜，写周报").map
      (fun tk => tk.text) = cleanedItemsOf "买菜，写周报" :=
  c2_empty_items_dropped jdThu jdThu "买菜，写周报" (by decide)

/-- C4 counterexample: sanitisation is not idempotent.  One pass over
明明天天 deletes the middle 明天 and splices the outer characters into a
fresh 明天 (the single left-to-right `replace` pass never re-examines its
own output), so a second pass strips it:
`stripDateWords 明明天天 = 明天` but `stripDateWords 明天` is empty. -/
theorem c4_counterexample :
    stripDateWords (stripDateWords "明明天天") ≠ stripDateWords "明明天天" := by
  decide

/-- C4 (amended): sanitisation is idempotent exactly on the inputs whose
sanitised form is free of the ten date patterns: if no pattern matches
anywhere in `stripDateWords x`, then re-sanitising it is a no-op (each
replace pass finds nothing, the collapsed text has no two adjacent
whitespace characters, and trimming is idempotent). -/
theorem string_mk_data (l : List Char) : (String.mk l).data = l := rfl

theorem c4_sanitize_idempotent_amended :
    ∀ x : String, anyPatternMatch (stripDateWords x) = false →
    stripDateWords (stripDateWords x) = stripDateWords x := by
  intro x h
  have hstr : stripDateWords x = String.mk (jsTrimList (collapseWs
      (stripPatterns.foldl (fun l f => stripAll f l) x.data))) := by
    unfold stripDateWords
    rfl
  have hxdata : (stripDateWords x).data = jsTrimList (collapseWs
      (stripPatterns.foldl (fun l f => stripAll f l) x.data)) := by
    rw [hstr]
  exact stripDateWords_fixpoint (stripDateWords x) h _ hxdata

/-- C4 witness: 今天买菜 sanitises to 买菜, which is pattern-free, and
re-sanitising it is a no-op. -/
theorem c4_witness :
    anyPatternMatch (stripDateWords "今天买菜") = false ∧
      stripDateWords (stripDateWords "今天买菜") = stripDateWords "今天买菜" :=
  ⟨by decide, c4_sanitize_idempotent_amended "今天买菜" (by decide)⟩

/-- C5 counterexample: the sanitiser's output can still contain a
recognised temporal-vocabulary phrase: sanitising 明明天天 yields 明天 —
the deletion of the inner 明天 splices the outer characters into a new
occurrence of the relative-day word, which survives in full. -/
theorem c5_counterexample :
    stripDateWords "明明天天" = "明天" ∧
      containsStr (stripDateWords "明明天天") "明天" = true := by
  refine ⟨by decide, by decide⟩

/-- C5 (amended): each of the ten patterns is stripped in a single
left-to-right pass, in the fixed source order in which /后天/ precedes
/大后天/; consequently a literal 大后天 loses only its 后天 part, leaving
the residual fragment 大 (大后天去银行 sanitises to 大去银行, not
去银行), and deletions can splice characters into new date phrases that
survive sanitisation (明明天天 sanitises to 明天).  The output is
therefore not guaranteed to be free of temporal vocabulary. -/
theorem c5_residual_fragments_amended :
    stripDateWords "大后天去银行" = "大去银行" ∧
      stripDateWords "大后天去银行" ≠ "去银行" ∧
      stripDateWords "明明天天" = "明天" := by
  refine ⟨by decide, by decide, by decide⟩

/-- C1 counterexample: the engine is not a function of a single injected
now.  `processTranscriptToTasks` reads the clock itself (line 191) and
`getScheduledDateFromText` performs its own independent `new Date()`
read (line 52); holding the first read fixed and varying the second read
changes the output batch (the anchor timestamps differ by a day), so a
clock read other than a single passed-in now influences the result. -/
theorem c1_counterexample :
    processTranscriptToTasks jdThu jdThuNext "明天买菜" ≠
      processTranscriptToTasks jdThu jdThuNext2 "明天买菜" := by
  decide

/-- C1 (amended): modelling the two internal `new Date()` reads as
explicit inputs, the derivation is a pure function: two runs on the same
utterance whose clock reads return the same instants produce identical
candidate lists — there is no other source of nondeterminism. -/
theorem c1_deterministic_amended :
    ∀ (t : String) (now1 rNow1 now2 rNow2 : JSDate),
    now1 = now2 → rNow1 = rNow2 →
    processTranscriptToTasks now1 rNow1 t =
      processTranscriptToTasks now2 rNow2 t := by
  intro t n1 r1 n2 r2 h1 h2
  rw [h1, h2]

/-- C1 witness: two runs at the same pair of instants agree. -/
theorem c1_witness :
    processTranscriptToTasks jdThu jdThu "买菜" =
      processTranscriptToTasks jdThu jdThu "买菜" :=
  c1_deterministic_amended "买菜" jdThu jdThu jdThu jdThu rfl rfl
